import Mathlib

/-!
Verification of the ingredient normalization and consolidation engine
(`backend/app/services/ingredient_parser.py`).

Modelling conventions:
* Python strings are `List Char` (`PyStr`); `str.lower` is modelled on the
  ASCII range and `str.strip` on the ASCII whitespace characters (all string
  constants in the program are ASCII apart from the vulgar-fraction glyphs,
  which are unaffected by either operation).
* Python `Fraction` is `PyFrac`, a numerator/denominator pair normalized on
  construction exactly as `Fraction` is (reduced, positive denominator); a
  fuel-based gcd keeps every operation kernel-reducible.
* Python `None` is `Option.none`; Python truthiness of an optional string is
  `pyTruthy` (`none` and the empty string are falsy).
* A raised-and-uncaught exception is `Except.error`; exceptions that the
  program catches are folded into `Option`/branching at the catch site.
* The external NLP parser (`ingredient_parser.parse_ingredient`) is an
  explicit parameter `nlp : PyStr → Except Unit NlpResult`; `Except.error`
  models a raising call.
-/

set_option maxRecDepth 8000
set_option exponentiation.threshold 1100

deriving instance DecidableEq for Except

abbrev PyStr := List Char

/-- Shorthand turning a Lean string literal into the `List Char` model. -/
def pyS (s : String) : PyStr := s.toList

/-- ASCII whitespace, the characters `str.strip`/`str.split` treat as space. -/
def pyWsChar (c : Char) : Bool :=
  c == ' ' || c == '\t' || c == '\n' || c == '\r' || c == '\x0b' || c == '\x0c'

/-- Model of `str.lower` (ASCII range). -/
def pyLowerChar (c : Char) : Char :=
  if 'A' ≤ c ∧ c ≤ 'Z' then Char.ofNat (c.toNat + 32) else c

/-- Model of `str.lower` on a whole string. -/
def pyLower (s : PyStr) : PyStr := s.map pyLowerChar

/-- Model of `str.strip()` (no argument): drop whitespace from both ends. -/
def pyStrip (s : PyStr) : PyStr :=
  ((s.dropWhile pyWsChar).reverse.dropWhile pyWsChar).reverse

/-- Does `s` start with `pat`? (model of `str.startswith`). -/
def strStarts (s pat : PyStr) : Bool :=
  match pat, s with
  | [], _ => true
  | _ :: _, [] => false
  | p :: ps, c :: cs => p == c && strStarts cs ps

/-- Does `s` end with `pat`? (model of `str.endswith`). -/
def strEnds (s pat : PyStr) : Bool := strStarts s.reverse pat.reverse

/-- Substring containment, the Python `pat in s` test on strings. -/
def strHas (s pat : PyStr) : Bool :=
  strStarts s pat ||
    (match s with
     | [] => false
     | _ :: rest => strHas rest pat)

/-- Python truthiness of an optional string: `None` and `""` are falsy. -/
def pyTruthy (o : Option PyStr) : Bool :=
  match o with
  | none => false
  | some s => !s.isEmpty

/-- Accumulator-passing core of `pySplit`; `cur` is the reversed current word. -/
def pySplitGo (cur : PyStr) : PyStr → List PyStr
  | [] => if cur.isEmpty then [] else [cur.reverse]
  | c :: rest =>
    if pyWsChar c then
      if cur.isEmpty then pySplitGo [] rest
      else cur.reverse :: pySplitGo [] rest
    else pySplitGo (c :: cur) rest

/-- Whitespace split (model of `str.split()` with no argument):
maximal runs of non-whitespace characters, empty pieces discarded. -/
def pySplit (s : PyStr) : List PyStr := pySplitGo [] s

/-- `dict.fromkeys`-style deduplication: keep the first occurrence of each
element, preserving order.  `seen` accumulates the elements already kept. -/
def pyDedupGo (seen : List PyStr) : List PyStr → List PyStr
  | [] => []
  | x :: xs => if x ∈ seen then pyDedupGo seen xs else x :: pyDedupGo (seen ++ [x]) xs

/-- `list(dict.fromkeys(l))`: duplicates removed, first-seen order kept. -/
def pyDedup (l : List PyStr) : List PyStr := pyDedupGo [] l

/- ### Exact rationals, modelling `fractions.Fraction` -/

/-- Fuel-based Euclidean gcd (`Nat.gcd` does not reduce in the kernel). -/
def gcdFuel : Nat → Nat → Nat → Nat
  | 0, _, n => n
  | _ + 1, 0, n => n
  | f + 1, m, n => gcdFuel f (n % m) m

/-- Greatest common divisor via `gcdFuel`; fuel `m + 1` always suffices. -/
def natGcd (m n : Nat) : Nat := gcdFuel (m + 1) m n

/-- Model of `fractions.Fraction`: kept reduced with positive denominator,
exactly the normal form the Python constructor establishes. -/
structure PyFrac where
  num : Int
  den : Nat
deriving DecidableEq, Repr

/-- The `Fraction(n, d)` constructor for `d > 0`: reduce by the gcd.
(Call sites guard `d = 0`, which raises `ZeroDivisionError` in Python.) -/
def mkFrac (n : Int) (d : Nat) : PyFrac :=
  let g := natGcd n.natAbs d
  if g = 0 then ⟨0, 0⟩ else ⟨n / (g : Int), d / g⟩

/-- `Fraction.__add__`: add and renormalize. -/
def addFrac (a b : PyFrac) : PyFrac :=
  mkFrac (a.num * (b.den : Int) + b.num * (a.den : Int)) (a.den * b.den)

/-- `Fraction.__lt__` (cross multiplication; denominators are nonnegative). -/
def ltFrac (a b : PyFrac) : Bool := a.num * (b.den : Int) < b.num * (a.den : Int)

/-- `Fraction.__le__`. -/
def leFrac (a b : PyFrac) : Bool := a.num * (b.den : Int) ≤ b.num * (a.den : Int)

/-- Python `min(a, x)` as used by `min(list)`: keep `a` unless `x < a`. -/
def minFrac (a x : PyFrac) : PyFrac := if ltFrac x a then x else a

/-- The zero of `PyFrac` (the `0.0` confidence literal). -/
def zeroFrac : PyFrac := ⟨0, 1⟩

/- ### Rendering numbers, modelling `str()` -/

/-- Decimal digits of `n`, most significant first (fueled for reducibility). -/
def natToCharsGo : Nat → Nat → List Char
  | 0, _ => []
  | f + 1, n =>
    if n < 10 then [Char.ofNat (48 + n)]
    else natToCharsGo f (n / 10) ++ [Char.ofNat (48 + n % 10)]

/-- Model of `str(n)` for a natural number. -/
def natToChars (n : Nat) : PyStr := natToCharsGo (n + 1) n

/-- Model of `str(i)` for an integer. -/
def intToChars (i : Int) : PyStr :=
  if i < 0 then '-' :: natToChars i.natAbs else natToChars i.toNat

/-- Model of `str(Fraction)`: `"n"` when the denominator is 1, else `"n/d"`. -/
def fracToChars (q : PyFrac) : PyStr :=
  if q.den = 1 then intToChars q.num
  else intToChars q.num ++ '/' :: natToChars q.den

/- ### Parsing numbers, modelling the `Fraction`/`float` string constructors -/

/-- Digit test (ASCII), the `\d` of the rational regex. -/
def isDigitChar (c : Char) : Bool := '0' ≤ c && c ≤ '9'

/-- Split a string into its maximal leading digit run and the rest. -/
def spanDigits : PyStr → PyStr × PyStr
  | [] => ([], [])
  | c :: cs =>
    if isDigitChar c then
      let (d, r) := spanDigits cs
      (c :: d, r)
    else ([], c :: cs)

/-- Numeric value of a digit run. -/
def digitsVal (ds : PyStr) : Nat :=
  ds.foldl (fun a c => 10 * a + (c.toNat - 48)) 0

/-- Leading optional sign, returning the sign and the rest. -/
def parseSign : PyStr → Int × PyStr
  | '+' :: r => (1, r)
  | '-' :: r => (-1, r)
  | s => (1, s)

/-- Is the string all whitespace (the trailing `\s*\Z` of the grammars)? -/
def allWs (s : PyStr) : Bool := s.all pyWsChar

/-- Value of `sign * ip.dp * 10^exp` as a reduced fraction, where `ip` and
`dp` are the integer-part and decimal-part digit runs. -/
def decimalVal (sign : Int) (ip dp : PyStr) (exp : Int) : PyFrac :=
  let mant : Int := sign * ((digitsVal ip * 10 ^ dp.length + digitsVal dp : Nat) : Int)
  if 0 ≤ exp then mkFrac (mant * (10 ^ exp.toNat : Nat)) (10 ^ dp.length)
  else mkFrac mant (10 ^ dp.length * 10 ^ (-exp).toNat)

/-- Core of the numeric string grammars shared by `Fraction(str)` and
`float(str)`: optional whitespace and sign, then either `digits/digits`
(only when `slash` is allowed) or `digits[.digits][E[sign]digits]` with at
least one mantissa digit, then optional whitespace.  Returns `none` on a
syntax error or a zero denominator (`ValueError`/`ZeroDivisionError`, which
every call site catches identically).  Digit-group underscores and the
`inf`/`nan` float spellings are not modelled: no program string reaches
them (`inf`/`nan` contain no `.`, and no input of interest has underscores). -/
def parseNumCore (slash : Bool) (s : PyStr) : Option PyFrac :=
  let t0 := s.dropWhile pyWsChar
  let (sign, t1) := parseSign t0
  let (ip, t2) := spanDigits t1
  match t2 with
  | '/' :: t3 =>
    if !slash then none
    else if ip.isEmpty then none
    else
      let (dp, t4) := spanDigits t3
      if dp.isEmpty then none
      else if !allWs t4 then none
      else if digitsVal dp = 0 then none
      else some (mkFrac (sign * (digitsVal ip : Int)) (digitsVal dp))
  | _ =>
    let (hasDot, dp, t3) :=
      match t2 with
      | '.' :: r =>
        let (d, r') := spanDigits r
        (true, d, r')
      | _ => (false, ([] : PyStr), t2)
    -- the lookahead `(?=\d|\.\d)`: a digit before or right after the dot
    if ip.isEmpty ∧ dp.isEmpty then none
    else if !hasDot ∧ ip.isEmpty then none
    else
      match t3 with
      | 'E' :: r | 'e' :: r =>
        let (esign, r1) := parseSign r
        let (ed, r2) := spanDigits r1
        if ed.isEmpty then none
        else if !allWs r2 then none
        else some (decimalVal sign ip dp (esign * (digitsVal ed : Int)))
      | rest =>
        if !allWs rest then none
        else some (decimalVal sign ip dp 0)

/-- The `Fraction(str)` constructor (`none` = `ValueError`/`ZeroDivisionError`). -/
def parseFracStr (s : PyStr) : Option PyFrac := parseNumCore true s

/-- The `float(str)` conversion for strings containing a `.`
(`none` = `ValueError`). -/
def parsePyFloat (s : PyStr) : Option PyFrac := parseNumCore false s

/-- Does `float(s)` overflow to infinity?  True exactly when the value is at
least `2^1024 - 2^970`, the round-to-nearest-even overflow threshold of
IEEE-754 binary64.  `Fraction(inf)` then raises `OverflowError`, which the
surrounding `except (ValueError, ZeroDivisionError)` does *not* catch. -/
def floatOverflows (q : PyFrac) : Bool :=
  (2 ^ 1024 - 2 ^ 970 : Nat) * q.den ≤ q.num.natAbs

/- ### The unicode fraction tables -/

/-- `UNICODE_TO_FRACTION`, in source (insertion) order. -/
def UNICODE_TO_FRACTION : List (Char × PyStr) :=
  [('½', pyS "1/2"), ('⅓', pyS "1/3"), ('⅔', pyS "2/3"), ('¼', pyS "1/4"),
   ('¾', pyS "3/4"), ('⅕', pyS "1/5"), ('⅖', pyS "2/5"), ('⅗', pyS "3/5"),
   ('⅘', pyS "4/5"), ('⅙', pyS "1/6"), ('⅚', pyS "5/6"), ('⅛', pyS "1/8"),
   ('⅜', pyS "3/8"), ('⅝', pyS "5/8"), ('⅞', pyS "7/8")]

/-- `FRACTION_TO_UNICODE = {v: k for k, v in UNICODE_TO_FRACTION.items()}`
(all values are distinct, so the inversion is the mapped list). -/
def FRACTION_TO_UNICODE : List (PyStr × PyStr) :=
  UNICODE_TO_FRACTION.map (fun p => (p.2, [p.1]))

/-- Dictionary lookup `FRACTION_TO_UNICODE.get(k)`. -/
def lookupFracUnicode (k : PyStr) : Option PyStr :=
  (FRACTION_TO_UNICODE.find? (fun p => p.1 == k)).map (·.2)

/- ### `normalize_fractions_for_parsing` -/

/-- One pass of the per-glyph mixed-number substitution (the `re.sub` with
pattern digit-then-glyph and replacement digit, space, text fraction):
every digit immediately followed by the glyph is expanded. -/
def subMixedOne (g : Char) (frac : PyStr) : PyStr → PyStr
  | [] => []
  | [c] => [c]
  | c1 :: c2 :: rest =>
    if isDigitChar c1 && c2 == g then c1 :: ' ' :: (frac ++ subMixedOne g frac rest)
    else c1 :: subMixedOne g frac (c2 :: rest)

/-- `text.replace(g, r)` for a single-character pattern. -/
def replaceChar (g : Char) (r : PyStr) (s : PyStr) : PyStr :=
  s.foldr (fun c acc => (if c == g then r else [c]) ++ acc) []

/-- Pass of the `re.sub` replacing a digits-slash-digits-hyphen run by the
same with the hyphen turned into a space (fueled; the fuel is the string
length, which always suffices since every step consumes a character). -/
def fixHyphenGo : Nat → PyStr → PyStr
  | 0, s => s
  | _ + 1, [] => []
  | fuel + 1, c :: rest =>
    if isDigitChar c then
      let (d1, r1) := spanDigits (c :: rest)
      match r1 with
      | '/' :: r2 =>
        let (d2, r3) := spanDigits r2
        if d2.isEmpty then c :: fixHyphenGo fuel rest
        else
          match r3 with
          | '-' :: r4 => d1 ++ '/' :: (d2 ++ ' ' :: fixHyphenGo fuel r4)
          | _ => c :: fixHyphenGo fuel rest
      | _ => c :: fixHyphenGo fuel rest
    else c :: fixHyphenGo fuel rest

/-- The `"1/2-inch" -> "1/2 inch"` spacing repair. -/
def fixHyphen (s : PyStr) : PyStr := fixHyphenGo s.length s

/-- `normalize_fractions_for_parsing`: for each glyph (in table order) expand
digit-adjacent occurrences as mixed numbers, then replace the rest, finally
repair `"d/d-"` hyphenation. -/
def normalize_fractions_for_parsing (s : PyStr) : PyStr :=
  fixHyphen (UNICODE_TO_FRACTION.foldl
    (fun t p => replaceChar p.1 p.2 (subMixedOne p.1 p.2 t)) s)

/- ### `convert_to_unicode_fraction` -/

/-- The rendering part of `convert_to_unicode_fraction` applied to the parsed
fraction: improper fractions become mixed numbers, and the reduced fractional
part is replaced by its unicode glyph when the table has one. -/
def renderPyFrac (q : PyFrac) : PyStr :=
  if (q.den : Int) ≤ q.num ∧ q.den ≠ 1 then
    -- whole_part = numerator // denominator, remainder = numerator % denominator
    -- (both positive in this branch, so Nat division models Python floor `//`)
    let whole := q.num.toNat / q.den
    let rem := q.num.toNat % q.den
    if rem = 0 then natToChars whole
    else
      let fs := fracToChars (mkFrac (rem : Int) q.den)
      natToChars whole ++ ' ' :: (lookupFracUnicode fs).getD fs
  else
    let fs := fracToChars q
    (lookupFracUnicode fs).getD fs

/-- `convert_to_unicode_fraction`.  `Except.error` models the uncaught
`OverflowError` of `Fraction(float(s))` when `float(s)` is infinite; the
caught `ValueError`/`ZeroDivisionError` cases return the input unchanged.
Modelling note: on the finite decimal branch, `Fraction(float(s))
.limit_denominator()` is modelled as the exact decimal value — no settled
claim depends on the numeric value of that branch, only on whether it
raises. -/
def convert_to_unicode_fraction (s : PyStr) : Except Unit PyStr :=
  if s.isEmpty then .ok s
  else if s.any (fun c => c == '.') then
    match parsePyFloat s with
    | none => .ok s
    | some q => if floatOverflows q then .error () else .ok (renderPyFrac q)
  else
    match parseFracStr s with
    | none => .ok s
    | some q => .ok (renderPyFrac q)

/- ### `combine_quantities` -/

/-- `combine_quantities`: falsy operands pass the other side through;
otherwise both sides are normalized and parsed as fractions and the sum is
rendered, any `ValueError`/`ZeroDivisionError` degrading to the literal
`"a + b"` string.  `Except.error` would be an uncaught exception from the
final rendering (shown impossible below). -/
def combine_quantities (qty1 qty2 : Option PyStr) : Except Unit (Option PyStr) :=
  if !pyTruthy qty1 && !pyTruthy qty2 then .ok none
  else if !pyTruthy qty1 then .ok qty2
  else if !pyTruthy qty2 then .ok qty1
  else
    match parseFracStr (normalize_fractions_for_parsing (qty1.getD [])),
          parseFracStr (normalize_fractions_for_parsing (qty2.getD [])) with
    | some f1, some f2 =>
      match convert_to_unicode_fraction (fracToChars (addFrac f1 f2)) with
      | .error e => .error e
      | .ok disp => .ok (some disp)
    | _, _ => .ok (some (qty1.getD [] ++ pyS " + " ++ qty2.getD []))

/- ### Dietary safety filter -/

/-- One entry of `DIETARY_MISPARSE_PATTERNS`. -/
structure MisparseRule where
  original_contains : List PyStr
  parsed_matches : List PyStr
  reason : PyStr
  severity : PyStr
deriving DecidableEq, Repr

/-- The static dietary-misparse table, in source order. -/
def DIETARY_MISPARSE_PATTERNS : List MisparseRule :=
  [⟨[pyS "eggplant"], [pyS "eggs", pyS "egg"],
    pyS "eggplant incorrectly parsed as eggs (vegan vs non-vegan)", pyS "critical"⟩,
   ⟨[pyS "coconut milk", pyS "almond milk", pyS "oat milk", pyS "soy milk",
     pyS "rice milk", pyS "cashew milk"], [pyS "milk"],
    pyS "plant-based milk incorrectly parsed as dairy milk (vegan vs non-vegan)", pyS "critical"⟩,
   ⟨[pyS "almond butter", pyS "peanut butter", pyS "cashew butter", pyS "sunflower butter"],
    [pyS "butter"],
    pyS "nut/seed butter incorrectly parsed as dairy butter (vegan vs non-vegan)", pyS "critical"⟩,
   ⟨[pyS "vegan cheese", pyS "cashew cheese", pyS "nutritional yeast"], [pyS "cheese"],
    pyS "vegan cheese incorrectly parsed as dairy cheese (vegan vs non-vegan)", pyS "critical"⟩,
   ⟨[pyS "coconut cream", pyS "cashew cream"], [pyS "cream"],
    pyS "plant-based cream incorrectly parsed as dairy cream (vegan vs non-vegan)", pyS "critical"⟩,
   ⟨[pyS "egg replacer", pyS "flax egg", pyS "chia egg"], [pyS "eggs", pyS "egg"],
    pyS "egg substitute incorrectly parsed as eggs (vegan vs non-vegan)", pyS "critical"⟩,
   ⟨[pyS "vanilla extract"], [pyS "vanilla"],
    pyS "vanilla extract parsed as just vanilla (loses specificity)", pyS "medium"⟩,
   ⟨[pyS "seaweed", pyS "kelp", pyS "nori"], [pyS "meat", pyS "beef", pyS "pork", pyS "chicken"],
    pyS "sea vegetable incorrectly parsed as meat (vegan vs non-vegan)", pyS "critical"⟩]

/-- Does one rule fire on the lowercased/stripped original and parsed name?
Original side: substring containment of some trigger phrase; parsed side:
equality with, or suffix of, some target. -/
def ruleFires (origL parsedL : PyStr) (r : MisparseRule) : Bool :=
  r.original_contains.any (fun ph => strHas origL ph) &&
  r.parsed_matches.any (fun t => parsedL == t || strEnds parsedL t)

/-- `check_dietary_misparse(original_text, parsed_name)`: first firing rule
wins; returns `(should_fallback, reason)`. -/
def check_dietary_misparse (original_text parsed_name : PyStr) : Bool × PyStr :=
  match DIETARY_MISPARSE_PATTERNS.find?
      (ruleFires (pyStrip (pyLower original_text)) (pyStrip (pyLower parsed_name))) with
  | some r => (true, r.reason)
  | none => (false, [])

/- ### Name normalizer -/

/-- `RAW_INGREDIENT_CONSOLIDATION`, in source (insertion) order. -/
def RAW_INGREDIENT_CONSOLIDATION : List (PyStr × List PyStr) :=
  [(pyS "eggs", [pyS "egg", pyS "eggs", pyS "whole egg", pyS "whole eggs",
                 pyS "large egg", pyS "large eggs"]),
   (pyS "butter", [pyS "butter", pyS "unsalted butter", pyS "salted butter"]),
   (pyS "sugar", [pyS "sugar", pyS "granulated sugar", pyS "white sugar", pyS "cane sugar"]),
   (pyS "brown sugar", [pyS "brown sugar", pyS "dark brown sugar", pyS "light brown sugar"]),
   (pyS "salt", [pyS "salt", pyS "kosher salt", pyS "sea salt", pyS "table salt", pyS "fine salt"]),
   (pyS "olive oil", [pyS "olive oil", pyS "extra virgin olive oil", pyS "evoo"])]

/-- `IGNORED_INGREDIENTS`. -/
def IGNORED_INGREDIENTS : List PyStr := [pyS "water"]

/-- The cleaned name: lowercase, strip, remove every asterisk (the `re.sub`
deleting runs of asterisks removes exactly the asterisk characters), strip
again. -/
def cleanName (ingredient_name : PyStr) : PyStr :=
  pyStrip ((pyStrip (pyLower ingredient_name)).filter (fun c => c != '*'))

/-- `normalize_raw_ingredient`: drop when any ignored ingredient occurs as a
substring; else an exact (whole-string) match against the lowercased
variant list of a consolidation group gives the canonical name; else the
cleaned name. -/
def normalize_raw_ingredient (ingredient_name : PyStr) : Option PyStr :=
  if IGNORED_INGREDIENTS.any (fun ig => strHas (cleanName ingredient_name) ig) then none
  else
    match RAW_INGREDIENT_CONSOLIDATION.find?
        (fun p => p.2.any (fun v => pyLower v == cleanName ingredient_name)) with
    | some p => some p.1
    | none => some (cleanName ingredient_name)

/- ### The data model and the external parser boundary -/

/-- Modelled from the spec: the `StructuredIngredient` class body (imported
from `app.models`) is not in the source tree; the fields follow section 3 of
the spec and every constructor call in the parser.  Immutable record of one
parsed (or merged) ingredient. -/
structure StructuredIngredient where
  raw_ingredient : PyStr
  quantity : Option PyStr
  unit : Option PyStr
  descriptors : List PyStr
  original_text : PyStr
  confidence : PyFrac
  used_fallback : Bool
deriving DecidableEq, Repr

/-- One element of the `amount` list of an NLP parse result. -/
structure NlpAmount where
  quantity : Option PyStr
  unit : Option PyStr
deriving DecidableEq, Repr

/-- The shape of the external `parse_ingredient` result that the program
reads: an optional-amount list, name segments (text and confidence),
optional preparation and comment texts.  The `name` field of the library is
always a list, so the non-list `str(parsed.name)` branch is unreachable. -/
structure NlpResult where
  amount : List NlpAmount
  name : List (PyStr × PyFrac)
  preparation : Option PyStr
  comment : Option PyStr
deriving DecidableEq, Repr

/-- `CONFIDENCE_THRESHOLD = 0.6`, modelled as the exact rational 3/5. -/
def CONFIDENCE_THRESHOLD : PyFrac := ⟨3, 5⟩

/- ### Per-line parsing pipeline -/

/-- Quantity/unit extraction from the first amount: the unit when truthy,
and the quantity routed through `convert_to_unicode_fraction` when truthy
(whose `OverflowError` propagates to the catch-all handler). -/
def extract_amount (parsed : NlpResult) : Except Unit (Option PyStr × Option PyStr) :=
  match parsed.amount with
  | [] => .ok (none, none)
  | a :: _ =>
    let unit : Option PyStr := if pyTruthy a.unit then a.unit else none
    if pyTruthy a.quantity then
      match convert_to_unicode_fraction (a.quantity.getD []) with
      | .error e => .error e
      | .ok q => .ok (some q, unit)
    else .ok (none, unit)

/-- Name extraction: first name segment, `none` when the list is empty. -/
def extract_name (parsed : NlpResult) : Option (PyStr × PyFrac) := parsed.name.head?

/-- Descriptor cleaning: delete parentheses and commas, whitespace-split,
keep the stripped parts of length > 1. -/
def clean_descriptor_text (t : PyStr) : List PyStr :=
  let cleaned := t.filter (fun c => c != '(' && c != ')' && c != ',')
  ((pySplit cleaned).map pyStrip).filter (fun p => 1 < p.length)

/-- Preparation-derived then comment-derived descriptor tokens. -/
def extract_descriptors (parsed : NlpResult) : List PyStr :=
  (match parsed.preparation with
   | some p => if p.isEmpty then [] else clean_descriptor_text p
   | none => []) ++
  (match parsed.comment with
   | some c => if c.isEmpty then [] else clean_descriptor_text c
   | none => [])

/-- The fallback record built at the no-name and caught-exception sites
(identical field values at both). -/
def fallbackRecord (text : PyStr) : StructuredIngredient :=
  ⟨pyStrip text, none, none, [], text, zeroFrac, true⟩

/-- Body of the `try:` block of `parse_ingredient_structured` after the NLP
call: amount extraction, name extraction, safety check, confidence check,
normalization, descriptor extraction. -/
def parse_body (parsed : NlpResult) (ingredient_text : PyStr) (threshold : PyFrac) :
    Except Unit (Option StructuredIngredient) :=
  match extract_amount parsed with
  | .error e => .error e
  | .ok (quantity, unit) =>
    match extract_name parsed with
    | none => .ok (some (fallbackRecord ingredient_text))
    | some (nm, conf) =>
      if nm.isEmpty then .ok (some (fallbackRecord ingredient_text))
      else if (check_dietary_misparse ingredient_text nm).1 || ltFrac conf threshold then
        .ok (some ⟨pyStrip ingredient_text, quantity, unit, [], ingredient_text, conf, true⟩)
      else
        match normalize_raw_ingredient nm with
        | none => .ok none
        | some raw =>
          .ok (some ⟨raw, quantity, unit, extract_descriptors parsed, ingredient_text, conf, false⟩)

/-- `parse_ingredient_structured`: blank input produces no record
(`not ingredient_text or not ingredient_text.strip()` collapses to the
strip being empty); any `Except.error` of the NLP call or of the body is the
caught `Exception` producing the confidence-0 fallback record. -/
def parse_ingredient_structured (nlp : PyStr → Except Unit NlpResult)
    (ingredient_text : PyStr) (threshold : PyFrac) : Option StructuredIngredient :=
  if (pyStrip ingredient_text).isEmpty then none
  else
    match nlp (normalize_fractions_for_parsing ingredient_text) with
    | .error _ => some (fallbackRecord ingredient_text)
    | .ok parsed =>
      match parse_body parsed ingredient_text threshold with
      | .ok r => r
      | .error _ => some (fallbackRecord ingredient_text)

/- ### Consolidation engine -/

/-- `can_combine_ingredients` (present in the source, not called by the
consolidation path). -/
def can_combine_ingredients (ing1 ing2 : StructuredIngredient) : Bool :=
  if ing1.raw_ingredient != ing2.raw_ingredient then false
  else if ing1.unit == ing2.unit then true
  else if ing1.unit == none && ing2.unit == none then true
  else false

/-- The grouping key `ing.unit or "unitless"`: a falsy unit (absent or the
empty string) becomes the literal string `"unitless"`. -/
def unitKey (u : Option PyStr) : PyStr :=
  if pyTruthy u then u.getD [] else pyS "unitless"

/-- Insert one record into an ordered key/group association list, the way a
Python dict of lists built in a loop does: first key occurrence appends a
new entry at the end, later ones append to the existing group. -/
def addToGroups (key : StructuredIngredient → PyStr) :
    List (PyStr × List StructuredIngredient) → StructuredIngredient →
    List (PyStr × List StructuredIngredient)
  | [], i => [(key i, [i])]
  | (k, g) :: rest, i =>
    if k = key i then (k, g ++ [i]) :: rest
    else (k, g) :: addToGroups key rest i

/-- Build the ordered dict of groups for a key function. -/
def groupByKey (key : StructuredIngredient → PyStr) (l : List StructuredIngredient) :
    List (PyStr × List StructuredIngredient) :=
  l.foldl (addToGroups key) []

/-- Run `combine_quantities` where the program calls it directly; the error
case is unreachable (`combine_quantities` never raises, proven below). -/
def combineQRun (a b : Option PyStr) : Option PyStr :=
  match combine_quantities a b with
  | .ok r => r
  | .error _ => none

/-- Merge a same-unit sub-group: first member is the template; quantities
are left-folded with `combine_quantities`, descriptors concatenated then
deduplicated, confidence is the running `min`, fallback is `any`, and the
original text becomes the synthetic `"Combined: ..."` audit string. -/
def mergeGroup : List StructuredIngredient → StructuredIngredient
  | [] => ⟨[], none, none, [], [], zeroFrac, false⟩
  | base :: rest =>
    { raw_ingredient := base.raw_ingredient
      quantity := rest.foldl (fun acc i => combineQRun acc i.quantity) base.quantity
      unit := base.unit
      descriptors := pyDedup ((base :: rest).foldl (fun acc i => acc ++ i.descriptors) [])
      original_text := pyS "Combined: " ++
        List.intercalate (pyS ", ") ((base :: rest).map (·.original_text))
      confidence := rest.foldl (fun m i => minFrac m i.confidence) base.confidence
      used_fallback := (base :: rest).any (·.used_fallback) }

/-- The loop body of `consolidate_ingredient_group` for one unit sub-group:
size 1 is kept as-is, anything larger is merged into one record. -/
def mergeUnitGroup (g : List StructuredIngredient) : List StructuredIngredient :=
  match g with
  | [x] => [x]
  | g => [mergeGroup g]

/-- `consolidate_ingredient_group`: lists of length ≤ 1 pass through; longer
lists are sub-grouped by `unitKey` and each sub-group of size 1 passes
through while larger ones are merged, in group order. -/
def consolidate_ingredient_group (ingredient_list : List StructuredIngredient) :
    List StructuredIngredient :=
  if ingredient_list.length ≤ 1 then ingredient_list
  else
    (groupByKey (fun i => unitKey i.unit) ingredient_list).foldl
      (fun acc kg => acc ++ mergeUnitGroup kg.2) []

/-- The loop body of the second pass of `parse_ingredients_list` for one
same-name group: a single occurrence is appended as-is, several are
consolidated. -/
def consolidateTop (g : List StructuredIngredient) : List StructuredIngredient :=
  match g with
  | [x] => [x]
  | g => consolidate_ingredient_group g

/-- The second pass of `parse_ingredients_list`: group the per-line records
by `raw_ingredient` in arrival order (the `ingredient_map` dict), emit
singleton groups unchanged and consolidate the rest. -/
def consolidate_parsed (parsed : List StructuredIngredient) : List StructuredIngredient :=
  (groupByKey (·.raw_ingredient) parsed).foldl
    (fun acc kg => acc ++ consolidateTop kg.2) []

/-- `parse_ingredients_list`: per-line parsing (skipping lines that produce
no record) followed by consolidation. -/
def parse_ingredients_list (nlp : PyStr → Except Unit NlpResult)
    (ingredients : List PyStr) (threshold : PyFrac) : List StructuredIngredient :=
  consolidate_parsed (ingredients.filterMap
    (fun t => parse_ingredient_structured nlp t threshold))

/- ### Shopping-list formatter -/

/-- `format_shopping_item`: fallback records render as `raw_ingredient`
verbatim; otherwise truthy quantity, truthy unit and the name are joined by
single spaces. -/
def format_shopping_item (ing : StructuredIngredient) : PyStr :=
  if ing.used_fallback then ing.raw_ingredient
  else
    List.intercalate (pyS " ")
      ((if pyTruthy ing.quantity then [ing.quantity.getD []] else []) ++
       (if pyTruthy ing.unit then [ing.unit.getD []] else []) ++
       [ing.raw_ingredient])

/- ### String lemmas -/

theorem strStarts_iff (pat : PyStr) : ∀ s, strStarts s pat = true ↔ ∃ r, s = pat ++ r := by
  induction pat with
  | nil => intro s; simp [strStarts]
  | cons p ps ih =>
    intro s
    cases s with
    | nil => simp [strStarts]
    | cons c cs =>
      simp only [strStarts, Bool.and_eq_true, beq_iff_eq, ih, List.cons_append]
      constructor
      · rintro ⟨rfl, r, rfl⟩
        exact ⟨r, rfl⟩
      · rintro ⟨r, h⟩
        injection h with h1 h2
        exact ⟨h1.symm, r, h2⟩

theorem strHas_iff (pat : PyStr) : ∀ s, strHas s pat = true ↔ ∃ a b, s = a ++ pat ++ b := by
  intro s
  induction s with
  | nil =>
    rw [strHas]
    simp only [Bool.or_false, strStarts_iff]
    constructor
    · rintro ⟨r, hr⟩
      exact ⟨[], r, by simpa using hr⟩
    · rintro ⟨a, b, hab⟩
      have ha : a = [] := by
        cases a with
        | nil => rfl
        | cons x xs => simp at hab
      subst ha
      exact ⟨b, by simpa using hab⟩
  | cons c cs ih =>
    rw [strHas]
    simp only [Bool.or_eq_true, strStarts_iff, ih]
    constructor
    · rintro (⟨r, hr⟩ | ⟨a, b, hab⟩)
      · exact ⟨[], r, by simpa using hr⟩
      · exact ⟨c :: a, b, by simp [hab]⟩
    · rintro ⟨a, b, hab⟩
      cases a with
      | nil =>
        left
        exact ⟨b, by simpa using hab⟩
      | cons a0 as =>
        right
        injection hab with h1 h2
        exact ⟨as, b, h2⟩

theorem strHas_of_decomp (pat a b : PyStr) : strHas (a ++ pat ++ b) pat = true :=
  (strHas_iff pat _).mpr ⟨a, b, rfl⟩

theorem strHas_map (f : Char → Char) (pat s : PyStr) (h : strHas s pat = true) :
    strHas (s.map f) (pat.map f) = true := by
  obtain ⟨a, b, rfl⟩ := (strHas_iff pat s).mp h
  exact (strHas_iff _ _).mpr ⟨a.map f, b.map f, by simp⟩

theorem strHas_reverse (pat s : PyStr) (h : strHas s pat = true) :
    strHas s.reverse pat.reverse = true := by
  obtain ⟨a, b, rfl⟩ := (strHas_iff pat s).mp h
  exact (strHas_iff _ _).mpr ⟨b.reverse, a.reverse, by simp⟩

theorem strHas_filter (p : Char → Bool) (pat : PyStr) (hall : ∀ c ∈ pat, p c = true)
    (s : PyStr) (h : strHas s pat = true) : strHas (s.filter p) pat = true := by
  obtain ⟨a, b, rfl⟩ := (strHas_iff pat s).mp h
  refine (strHas_iff _ _).mpr ⟨a.filter p, b.filter p, ?_⟩
  simp [List.filter_append, List.filter_eq_self.mpr hall]

theorem mem_of_strHas (pat s : PyStr) (h : strHas s pat = true) :
    ∀ c ∈ pat, c ∈ s := by
  obtain ⟨a, b, rfl⟩ := (strHas_iff pat s).mp h
  intro c hc
  simp [hc]

theorem strHas_dropWhile (p : Char → Bool) (c0 : Char) (pt : PyStr) (hc : p c0 = false) :
    ∀ s, strHas s (c0 :: pt) = true → strHas (s.dropWhile p) (c0 :: pt) = true := by
  intro s
  induction s with
  | nil => simp [strHas, strStarts]
  | cons c cs ih =>
    intro h
    rw [List.dropWhile_cons]
    by_cases hpc : p c = true
    · rw [if_pos hpc]
      apply ih
      rw [strHas, Bool.or_eq_true] at h
      rcases h with hs | hh
      · exfalso
        rw [strStarts] at hs
        simp only [Bool.and_eq_true, beq_iff_eq] at hs
        rw [hs.1] at hc
        rw [hc] at hpc
        exact Bool.false_ne_true hpc
      · exact hh
    · rw [if_neg hpc]
      exact h

theorem strHas_pyStrip (c0 : Char) (pt : PyStr)
    (hall : ∀ c ∈ c0 :: pt, pyWsChar c = false) :
    ∀ s, strHas s (c0 :: pt) = true → strHas (pyStrip s) (c0 :: pt) = true := by
  intro s h
  have h1 := strHas_dropWhile pyWsChar c0 pt (hall c0 (by simp)) s h
  have h2 := strHas_reverse (c0 :: pt) _ h1
  cases hrev : (c0 :: pt).reverse with
  | nil => exact absurd (List.reverse_eq_nil_iff.mp hrev) (by simp)
  | cons d0 dt =>
    rw [hrev] at h2
    have hd0 : pyWsChar d0 = false := by
      apply hall
      have hm : d0 ∈ (c0 :: pt).reverse := by rw [hrev]; simp
      rw [List.mem_reverse] at hm
      exact hm
    have h3 := strHas_dropWhile pyWsChar d0 dt hd0 _ h2
    have h4 := strHas_reverse (d0 :: dt) _ h3
    rw [← hrev, List.reverse_reverse] at h4
    exact h4

theorem mem_dropWhile (p : Char → Bool) (c : Char) :
    ∀ s : PyStr, c ∈ s.dropWhile p → c ∈ s := by
  intro s
  induction s with
  | nil => simp
  | cons d ds ih =>
    rw [List.dropWhile_cons]
    by_cases hd : p d = true
    · rw [if_pos hd]
      intro h
      exact List.mem_cons_of_mem d (ih h)
    · rw [if_neg hd]
      exact id

theorem mem_pyStrip (c : Char) (s : PyStr) (h : c ∈ pyStrip s) : c ∈ s := by
  unfold pyStrip at h
  rw [List.mem_reverse] at h
  have h1 := mem_dropWhile _ _ _ h
  rw [List.mem_reverse] at h1
  exact mem_dropWhile _ _ _ h1

theorem pyLowerChar_ws (c : Char) (h : pyWsChar c = true) : pyLowerChar c = c := by
  have hd : c = ' ' ∨ c = '\t' ∨ c = '\n' ∨ c = '\r' ∨ c = '\x0b' ∨ c = '\x0c' := by
    simpa [pyWsChar, or_assoc] using h
  rcases hd with rfl | rfl | rfl | rfl | rfl | rfl <;> decide

/- ### Split coverage lemmas -/

theorem pySplitGo_mem_acc (c : Char) :
    ∀ (s cur : PyStr), c ∈ cur → ∃ w ∈ pySplitGo cur s, c ∈ w := by
  intro s
  induction s with
  | nil =>
    intro cur hc
    have hne : cur.isEmpty = false := by
      cases cur with
      | nil => simp at hc
      | cons x xs => rfl
    refine ⟨cur.reverse, ?_, by simpa using hc⟩
    simp [pySplitGo, hne]
  | cons d rest ih =>
    intro cur hc
    rw [pySplitGo]
    by_cases hd : pyWsChar d = true
    · rw [if_pos hd]
      have hne : cur.isEmpty = false := by
        cases cur with
        | nil => simp at hc
        | cons x xs => rfl
      rw [if_neg (by simp [hne])]
      exact ⟨cur.reverse, by simp, by simpa using hc⟩
    · rw [if_neg hd]
      exact ih (d :: cur) (List.mem_cons_of_mem d hc)

theorem pySplitGo_cover (c : Char) :
    ∀ (s cur : PyStr), c ∈ s →
      pyWsChar c = true ∨ ∃ w ∈ pySplitGo cur s, c ∈ w := by
  intro s
  induction s with
  | nil => intro cur hc; simp at hc
  | cons d rest ih =>
    intro cur hc
    rw [pySplitGo]
    by_cases hd : pyWsChar d = true
    · rw [if_pos hd]
      rcases List.mem_cons.mp hc with rfl | hcr
      · exact Or.inl hd
      · rcases ih [] hcr with hws | ⟨w, hw, hcw⟩
        · exact Or.inl hws
        · right
          refine ⟨w, ?_, hcw⟩
          split
          · exact hw
          · exact List.mem_cons_of_mem _ hw
    · rw [if_neg hd]
      rcases List.mem_cons.mp hc with rfl | hcr
      · exact Or.inr (pySplitGo_mem_acc c rest (c :: cur) (by simp))
      · exact ih (d :: cur) hcr

/-- Every character of a string is whitespace or lies in one of its
whitespace-split words. -/
theorem pySplit_cover (c : Char) (s : PyStr) (hc : c ∈ s) :
    pyWsChar c = true ∨ ∃ w ∈ pySplit s, c ∈ w :=
  pySplitGo_cover c s [] hc

/- ### Digit-only rendering lemmas -/

theorem natToCharsGo_digits :
    ∀ (f n : Nat), ∀ c ∈ natToCharsGo f n, c ∈ pyS "0123456789" := by
  intro f
  induction f with
  | zero => intro n c hc; simp [natToCharsGo] at hc
  | succ f ih =>
    intro n c hc
    rw [natToCharsGo] at hc
    split at hc
    · simp only [List.mem_singleton] at hc
      subst hc
      rename_i h10
      interval_cases n <;> decide
    · rcases List.mem_append.mp hc with hl | hr
      · exact ih (n / 10) c hl
      · simp only [List.mem_singleton] at hr
        subst hr
        have h10 : n % 10 < 10 := Nat.mod_lt _ (by omega)
        generalize hm : n % 10 = m at h10 ⊢
        interval_cases m <;> decide

theorem fracToChars_no_dot (q : PyFrac) :
    (fracToChars q).any (fun c => c == '.') = false := by
  have hdig : ∀ c ∈ pyS "0123456789", (c == '.') = false := by decide
  have hnat : ∀ n : Nat, ∀ c ∈ natToChars n, (c == '.') = false := by
    intro n c hc
    exact hdig c (natToCharsGo_digits (n + 1) n c hc)
  have hint : ∀ i : Int, ∀ c ∈ intToChars i, (c == '.') = false := by
    intro i c hc
    unfold intToChars at hc
    split at hc
    · rcases List.mem_cons.mp hc with rfl | hm
      · decide
      · exact hnat _ c hm
    · exact hnat _ c hc
  rw [List.any_eq_false]
  intro c hc
  simp only [Bool.not_eq_true]
  unfold fracToChars at hc
  split at hc
  · exact hint _ c hc
  · rcases List.mem_append.mp hc with hl | hr
    · exact hint _ c hl
    · rcases List.mem_cons.mp hr with rfl | hm
      · decide
      · exact hnat _ c hm

/- ### `convert_to_unicode_fraction` and `combine_quantities` never raise
except on the float-overflow path -/

theorem convert_no_dot_ok (s : PyStr) (h : s.any (fun c => c == '.') = false) :
    ∃ out, convert_to_unicode_fraction s = .ok out := by
  unfold convert_to_unicode_fraction
  split
  · exact ⟨s, rfl⟩
  · rw [h]
    simp only [Bool.false_eq_true, if_false]
    cases parseFracStr s with
    | none => exact ⟨s, rfl⟩
    | some q => exact ⟨renderPyFrac q, rfl⟩

set_option maxHeartbeats 1000000 in
theorem combine_quantities_ok (a b : Option PyStr) :
    ∃ r, combine_quantities a b = .ok r := by
  unfold combine_quantities
  split
  · exact ⟨none, rfl⟩
  split
  · exact ⟨b, rfl⟩
  split
  · exact ⟨a, rfl⟩
  split
  · rename_i f1 f2 h1 h2
    obtain ⟨out, hout⟩ := convert_no_dot_ok _ (fracToChars_no_dot (addFrac f1 f2))
    rw [hout]
    exact ⟨some out, rfl⟩
  · exact ⟨_, rfl⟩

/-- `combine_quantities` as the program calls it: always the `.ok` value. -/
theorem combine_quantities_run (a b : Option PyStr) :
    combine_quantities a b = .ok (combineQRun a b) := by
  obtain ⟨r, hr⟩ := combine_quantities_ok a b
  rw [combineQRun, hr]

/- ### Shape of per-line parse results -/

theorem parse_body_shape (parsed : NlpResult) (text : PyStr) (th : PyFrac)
    (r : StructuredIngredient) (h : parse_body parsed text th = .ok (some r)) :
    (r.used_fallback = true ∧ r.raw_ingredient = pyStrip text ∧ r.original_text = text ∧
     r.descriptors = []) ∨
    (r.used_fallback = false ∧ r.original_text = text) := by
  unfold parse_body at h
  split at h
  · simp at h
  · split at h
    · simp only [Except.ok.injEq, Option.some.injEq] at h
      subst h
      exact Or.inl ⟨rfl, rfl, rfl, rfl⟩
    · split at h
      · simp only [Except.ok.injEq, Option.some.injEq] at h
        subst h
        exact Or.inl ⟨rfl, rfl, rfl, rfl⟩
      · split at h
        · simp only [Except.ok.injEq, Option.some.injEq] at h
          subst h
          exact Or.inl ⟨rfl, rfl, rfl, rfl⟩
        · split at h
          · simp at h
          · simp only [Except.ok.injEq, Option.some.injEq] at h
            subst h
            exact Or.inr ⟨rfl, rfl⟩

theorem parse_body_safety_path (parsed : NlpResult) (text : PyStr) (th : PyFrac)
    (q u : Option PyStr) (nm : PyStr) (conf : PyFrac)
    (hA : extract_amount parsed = .ok (q, u))
    (hN : extract_name parsed = some (nm, conf))
    (hnm : nm.isEmpty = false)
    (hfb : ((check_dietary_misparse text nm).1 || ltFrac conf th) = true) :
    parse_body parsed text th = .ok (some ⟨pyStrip text, q, u, [], text, conf, true⟩) := by
  unfold parse_body
  rw [hA, hN]
  simp [hnm, hfb]

theorem parse_structured_fallback_shape (nlp : PyStr → Except Unit NlpResult)
    (text : PyStr) (th : PyFrac) (r : StructuredIngredient)
    (h : parse_ingredient_structured nlp text th = some r) (hf : r.used_fallback = true) :
    r.raw_ingredient = pyStrip text ∧ r.original_text = text ∧ r.descriptors = [] := by
  unfold parse_ingredient_structured at h
  split at h
  · exact absurd h (by simp)
  · split at h
    · simp only [Option.some.injEq] at h
      subst h
      exact ⟨rfl, rfl, rfl⟩
    · rename_i parsed heq
      split at h
      · rename_i r2 hB
        subst h
        rcases parse_body_shape parsed text th r hB with ⟨_, h1, h2, h3⟩ | ⟨hff, _⟩
        · exact ⟨h1, h2, h3⟩
        · rw [hff] at hf
          exact absurd hf (by simp)
      · simp only [Option.some.injEq] at h
        subst h
        exact ⟨rfl, rfl, rfl⟩

theorem parse_structured_error (nlp : PyStr → Except Unit NlpResult)
    (text : PyStr) (th : PyFrac)
    (hne : (pyStrip text).isEmpty = false)
    (hE : nlp (normalize_fractions_for_parsing text) = .error ()) :
    parse_ingredient_structured nlp text th = some (fallbackRecord text) := by
  unfold parse_ingredient_structured
  rw [if_neg (by simp [hne]), hE]

/- ### Grouping invariants -/

/-- Soundness property of a key/group association list: groups are nonempty,
and every member satisfies `S` and has the group key. -/
def GroupsOk (key : StructuredIngredient → PyStr) (S : StructuredIngredient → Prop)
    (gs : List (PyStr × List StructuredIngredient)) : Prop :=
  ∀ k g, (k, g) ∈ gs → g ≠ [] ∧ ∀ x ∈ g, S x ∧ key x = k

theorem addToGroups_ok (key : StructuredIngredient → PyStr) (S : StructuredIngredient → Prop)
    (i : StructuredIngredient) (hi : S i) :
    ∀ gs, GroupsOk key S gs → GroupsOk key S (addToGroups key gs i) := by
  intro gs
  induction gs with
  | nil =>
    intro _ k g hmem
    simp only [addToGroups, List.mem_singleton, Prod.mk.injEq] at hmem
    obtain ⟨rfl, rfl⟩ := hmem
    refine ⟨by simp, ?_⟩
    intro x hx
    rw [List.mem_singleton] at hx
    subst hx
    exact ⟨hi, rfl⟩
  | cons p rest ih =>
    intro hinv k g hmem
    obtain ⟨k0, g0⟩ := p
    rw [addToGroups] at hmem
    split at hmem
    · rename_i hk
      rcases List.mem_cons.mp hmem with heq | hrest
      · rw [Prod.mk.injEq] at heq
        obtain ⟨hkk, hgg⟩ := heq
        subst hgg
        obtain ⟨hne, hmem0⟩ := hinv k0 g0 (List.mem_cons_self _ _)
        refine ⟨by simp, ?_⟩
        intro x hx
        rcases List.mem_append.mp hx with hx0 | hx1
        · obtain ⟨hS, hkey⟩ := hmem0 x hx0
          exact ⟨hS, hkey.trans hkk.symm⟩
        · rw [List.mem_singleton] at hx1
          subst hx1
          exact ⟨hi, by rw [hkk, hk]⟩
      · exact hinv k g (List.mem_cons_of_mem _ hrest)
    · rcases List.mem_cons.mp hmem with heq | hrest
      · rw [Prod.mk.injEq] at heq
        obtain ⟨hkk, hgg⟩ := heq
        rw [hkk, hgg]
        exact hinv k0 g0 (List.mem_cons_self _ _)
      · have hinvr : GroupsOk key S rest := fun k2 g2 hm2 =>
          hinv k2 g2 (List.mem_cons_of_mem _ hm2)
        exact ih hinvr k g hrest

theorem foldl_addToGroups_ok (key : StructuredIngredient → PyStr)
    (S : StructuredIngredient → Prop) :
    ∀ (l : List StructuredIngredient) gs, (∀ x ∈ l, S x) → GroupsOk key S gs →
      GroupsOk key S (l.foldl (addToGroups key) gs) := by
  intro l
  induction l with
  | nil => intro gs _ hgs; exact hgs
  | cons i rest ih =>
    intro gs hl hgs
    rw [List.foldl_cons]
    exact ih (addToGroups key gs i) (fun x hx => hl x (List.mem_cons_of_mem _ hx))
      (addToGroups_ok key S i (hl i (by simp)) gs hgs)

theorem groupByKey_ok (key : StructuredIngredient → PyStr) (l : List StructuredIngredient) :
    GroupsOk key (fun x => x ∈ l) (groupByKey key l) := by
  unfold groupByKey
  exact foldl_addToGroups_ok key _ l [] (fun x hx => hx) (by intro k g h; simp at h)

/-- Membership in an append-accumulating fold. -/
theorem mem_foldl_append (F : PyStr × List StructuredIngredient → List StructuredIngredient) :
    ∀ (gs : List (PyStr × List StructuredIngredient)) (init : List StructuredIngredient)
      (r : StructuredIngredient),
      (r ∈ gs.foldl (fun acc kg => acc ++ F kg) init ↔
        r ∈ init ∨ ∃ kg ∈ gs, r ∈ F kg) := by
  intro gs
  induction gs with
  | nil => intro init r; simp
  | cons g gsr ih =>
    intro init r
    rw [List.foldl_cons, ih]
    simp only [List.mem_append, List.mem_cons, or_assoc]
    constructor
    · rintro (h | h | ⟨kg, hkg, hr⟩)
      · exact Or.inl h
      · exact Or.inr ⟨g, by simp, h⟩
      · exact Or.inr ⟨kg, by simp [hkg], hr⟩
    · rintro (h | ⟨kg, hkg, hr⟩)
      · exact Or.inl h
      · rcases hkg with rfl | hkg2
        · exact Or.inr (Or.inl hr)
        · exact Or.inr (Or.inr ⟨kg, hkg2, hr⟩)

/- ### Ordering lemmas for `PyFrac` and the running minimum -/

theorem leFrac_refl (a : PyFrac) : leFrac a a = true := by
  unfold leFrac
  rw [decide_eq_true_eq]

theorem leFrac_of_lt (a b : PyFrac) (h : ltFrac a b = true) : leFrac a b = true := by
  unfold ltFrac at h
  unfold leFrac
  rw [decide_eq_true_eq] at h ⊢
  exact le_of_lt h

theorem leFrac_of_not_lt (a b : PyFrac) (h : ltFrac a b = false) : leFrac b a = true := by
  unfold ltFrac at h
  unfold leFrac
  rw [decide_eq_true_eq]
  exact Int.not_lt.mp (of_decide_eq_false h)

theorem leFrac_trans (a b c : PyFrac) (hb : 0 < b.den)
    (hab : leFrac a b = true) (hbc : leFrac b c = true) : leFrac a c = true := by
  unfold leFrac at hab hbc ⊢
  rw [decide_eq_true_eq] at hab hbc ⊢
  have hbz : (0 : Int) < (b.den : Int) := by exact_mod_cast hb
  have h1 := mul_le_mul_of_nonneg_right hab (Int.ofNat_nonneg c.den)
  have h2 := mul_le_mul_of_nonneg_right hbc (Int.ofNat_nonneg a.den)
  have h3 : a.num * (c.den : Int) * (b.den : Int) ≤ c.num * (a.den : Int) * (b.den : Int) := by
    nlinarith
  exact le_of_mul_le_mul_right h3 hbz

theorem foldl_minFrac_props :
    ∀ (rest : List PyFrac) (base : PyFrac), 0 < base.den → (∀ x ∈ rest, 0 < x.den) →
      (rest.foldl minFrac base = base ∨ rest.foldl minFrac base ∈ rest) ∧
      leFrac (rest.foldl minFrac base) base = true ∧
      (∀ x ∈ rest, leFrac (rest.foldl minFrac base) x = true) := by
  intro rest
  induction rest with
  | nil =>
    intro base hb _
    exact ⟨Or.inl rfl, leFrac_refl base, by simp⟩
  | cons y ys ih =>
    intro base hb hr
    rw [List.foldl_cons]
    have hy : 0 < y.den := hr y (by simp)
    have hmin : minFrac base y = base ∨ minFrac base y = y := by
      unfold minFrac
      split
      · exact Or.inr rfl
      · exact Or.inl rfl
    have hminden : 0 < (minFrac base y).den := by
      rcases hmin with h | h <;> rw [h] <;> assumption
    obtain ⟨hmem, hle, hall⟩ :=
      ih (minFrac base y) hminden (fun x hx => hr x (List.mem_cons_of_mem _ hx))
    have hmb : leFrac (minFrac base y) base = true := by
      unfold minFrac
      split
      · rename_i hlt
        exact leFrac_of_lt y base hlt
      · exact leFrac_refl base
    have hmy : leFrac (minFrac base y) y = true := by
      unfold minFrac
      split
      · exact leFrac_refl y
      · rename_i hlt
        exact leFrac_of_not_lt y base (by simpa using hlt)
    refine ⟨?_, ?_, ?_⟩
    · rcases hmem with h | h
      · rcases hmin with hb2 | hy2
        · exact Or.inl (h.trans hb2)
        · exact Or.inr (by simp [h.trans hy2])
      · exact Or.inr (List.mem_cons_of_mem _ h)
    · exact leFrac_trans _ _ _ hminden hle hmb
    · intro x hx
      rcases List.mem_cons.mp hx with rfl | hxs
      · exact leFrac_trans _ _ _ hminden hle hmy
      · exact hall x hxs

/- ### Deduplication -/

theorem pyDedupGo_props : ∀ (l seen : List PyStr),
    (pyDedupGo seen l).Nodup ∧ ∀ x ∈ pyDedupGo seen l, x ∉ seen := by
  intro l
  induction l with
  | nil => intro seen; simp [pyDedupGo]
  | cons x xs ih =>
    intro seen
    rw [pyDedupGo]
    split
    · exact ih seen
    · rename_i hx
      obtain ⟨hnodup, hnot⟩ := ih (seen ++ [x])
      refine ⟨List.nodup_cons.mpr ⟨?_, hnodup⟩, ?_⟩
      · intro hmem
        have := hnot x hmem
        simp at this
      · intro y hy
        rcases List.mem_cons.mp hy with rfl | hys
        · exact hx
        · intro hcon
          exact hnot y hys (by simp [hcon])

theorem pyDedup_nodup (l : List PyStr) : (pyDedup l).Nodup := (pyDedupGo_props l []).1

/- ### Claim C7 -/

/-- C7 counterexample: the canonical mixed-number quantity `"1 ½"` (it is
exactly what `toDisplayFraction` renders for 3/2) does not round-trip:
normalizing gives `"1 1/2"`, which `Fraction(str)` cannot parse (mixed
numbers are a `ValueError`), so the conversion returns it unchanged. -/
theorem c7_counterexample :
    convert_to_unicode_fraction (pyS "3/2") = .ok (pyS "1 ½") ∧
    convert_to_unicode_fraction (normalize_fractions_for_parsing (pyS "1 ½")) =
      .ok (pyS "1 1/2") ∧
    pyS "1 1/2" ≠ pyS "1 ½" := by decide

/-- C7 (amended): the round-trip law
`toDisplayFraction(normalizeForParsing(u)) = u` holds for every
single-glyph canonical unicode fraction (all fifteen table entries), but
not for canonical mixed-number strings such as `"1 ½"`. -/
theorem c7_roundtrip_glyphs :
    ∀ g f, (g, f) ∈ UNICODE_TO_FRACTION →
      convert_to_unicode_fraction (normalize_fractions_for_parsing [g]) = .ok [g] := by
  intro g f hm
  fin_cases hm <;> decide

/-- Witness for `c7_roundtrip_glyphs` at the glyph `½`. -/
theorem c7_roundtrip_glyphs_witness :
    ('½', pyS "1/2") ∈ UNICODE_TO_FRACTION ∧
    convert_to_unicode_fraction (normalize_fractions_for_parsing ['½']) = .ok ['½'] :=
  ⟨by decide, c7_roundtrip_glyphs '½' (pyS "1/2") (by decide)⟩

/- ### Claim C9 -/

/-- C9 counterexample: `convert_to_unicode_fraction("1.8e308")` raises.  The
decimal branch computes `float("1.8e308") = inf` (the value is above the
IEEE-754 binary64 overflow threshold) and `Fraction(inf)` raises
`OverflowError`, which the `except (ValueError, ZeroDivisionError)` clause
does not catch. -/
theorem c9_counterexample :
    convert_to_unicode_fraction (pyS "1.8e308") = .error () := by decide

/-- C9 (amended): for every input string that neither numeric parse accepts,
`convert_to_unicode_fraction` returns the input unchanged; and its only
exception path is a decimal string whose `float` value overflows to
infinity (the uncaught `OverflowError`). -/
theorem c9_unparsable_unchanged :
    (∀ s : PyStr, s.any (fun c => c == '.') = true → parsePyFloat s = none →
        convert_to_unicode_fraction s = .ok s) ∧
    (∀ s : PyStr, s.any (fun c => c == '.') = false → parseFracStr s = none →
        convert_to_unicode_fraction s = .ok s) ∧
    (∀ (s : PyStr) (e : Unit), convert_to_unicode_fraction s = .error e →
        s.any (fun c => c == '.') = true ∧
        ∃ q, parsePyFloat s = some q ∧ floatOverflows q = true) := by
  refine ⟨?_, ?_, ?_⟩
  · intro s hdot hq
    have hne : s.isEmpty = false := by
      cases s with
      | nil => simp at hdot
      | cons c cs => rfl
    unfold convert_to_unicode_fraction
    rw [if_neg (by simp [hne]), if_pos hdot, hq]
  · intro s hdot hq
    unfold convert_to_unicode_fraction
    by_cases hne : s.isEmpty = true
    · rw [if_pos hne]
    · rw [if_neg hne, if_neg (by simp [hdot]), hq]
  · intro s e h
    unfold convert_to_unicode_fraction at h
    split at h
    · simp at h
    · split at h
      · rename_i hdot
        refine ⟨hdot, ?_⟩
        split at h
        · simp at h
        · rename_i q hq
          split at h
          · rename_i hov
            exact ⟨q, hq, hov⟩
          · simp at h
      · split at h <;> simp at h

/-- Witness for `c9_unparsable_unchanged` at the unparsable input `"abc"`. -/
theorem c9_unparsable_unchanged_witness :
    (pyS "abc").any (fun c => c == '.') = false ∧ parseFracStr (pyS "abc") = none ∧
    convert_to_unicode_fraction (pyS "abc") = .ok (pyS "abc") :=
  ⟨by decide, by decide,
   c9_unparsable_unchanged.2.1 (pyS "abc") (by decide) (by decide)⟩

/- ### Claim C8 -/

/-- C8: `combine_quantities` treats a missing (falsy) operand as the
additive identity, sums two parseable quantities exactly and renders the
sum (so `"1/2" + "1/4" = "¾"` and `"1/3" + "2/3" = "1"`), degrades to the
literal `"a + b"` string when either side is non-numeric, and never raises
on any inputs. -/
theorem c8_combine_quantities :
    (∀ a b : Option PyStr, pyTruthy a = false → pyTruthy b = false →
        combine_quantities a b = .ok none) ∧
    (∀ a b : Option PyStr, pyTruthy a = false → pyTruthy b = true →
        combine_quantities a b = .ok b) ∧
    (∀ a b : Option PyStr, pyTruthy a = true → pyTruthy b = false →
        combine_quantities a b = .ok a) ∧
    (∀ (a b : PyStr) (f1 f2 : PyFrac),
        parseFracStr (normalize_fractions_for_parsing a) = some f1 →
        parseFracStr (normalize_fractions_for_parsing b) = some f2 →
        pyTruthy (some a) = true → pyTruthy (some b) = true →
        ∃ out, convert_to_unicode_fraction (fracToChars (addFrac f1 f2)) = .ok out ∧
          combine_quantities (some a) (some b) = .ok (some out)) ∧
    (∀ a b : PyStr,
        parseFracStr (normalize_fractions_for_parsing a) = none ∨
        parseFracStr (normalize_fractions_for_parsing b) = none →
        pyTruthy (some a) = true → pyTruthy (some b) = true →
        combine_quantities (some a) (some b) = .ok (some (a ++ pyS " + " ++ b))) ∧
    combine_quantities (some (pyS "1/2")) (some (pyS "1/4")) = .ok (some (pyS "¾")) ∧
    combine_quantities (some (pyS "1/3")) (some (pyS "2/3")) = .ok (some (pyS "1")) ∧
    (∀ a b : Option PyStr, ∃ r, combine_quantities a b = .ok r) := by
  refine ⟨?_, ?_, ?_, ?_, ?_, by decide, by decide, combine_quantities_ok⟩
  · intro a b ha hb
    unfold combine_quantities
    rw [if_pos (by simp [ha, hb])]
  · intro a b ha hb
    unfold combine_quantities
    rw [if_neg (by simp [hb]), if_pos (by simp [ha])]
  · intro a b ha hb
    unfold combine_quantities
    rw [if_neg (by simp [ha]), if_neg (by simp [ha]), if_pos (by simp [hb])]
  · intro a b f1 f2 h1 h2 ha hb
    obtain ⟨out, hout⟩ := convert_no_dot_ok _ (fracToChars_no_dot (addFrac f1 f2))
    refine ⟨out, hout, ?_⟩
    unfold combine_quantities
    rw [if_neg (by simp [ha]), if_neg (by simp [ha]), if_neg (by simp [hb])]
    simp only [Option.getD_some, h1, h2, hout]
  · intro a b hor ha hb
    unfold combine_quantities
    rw [if_neg (by simp [ha]), if_neg (by simp [ha]), if_neg (by simp [hb])]
    rcases hor with h1 | h2
    · simp only [Option.getD_some, h1]
    · simp only [Option.getD_some, h2]
      cases parseFracStr (normalize_fractions_for_parsing a) <;> rfl

/-- Witness for `c8_combine_quantities` combining 1/2 and 1/4. -/
theorem c8_combine_quantities_witness :
    ∃ out, convert_to_unicode_fraction (fracToChars (addFrac ⟨1, 2⟩ ⟨1, 4⟩)) = .ok out ∧
      combine_quantities (some (pyS "1/2")) (some (pyS "1/4")) = .ok (some out) :=
  c8_combine_quantities.2.2.2.1 (pyS "1/2") (pyS "1/4") ⟨1, 2⟩ ⟨1, 4⟩
    (by decide) (by decide) (by decide) (by decide)

/- ### Claim C2 -/

theorem check_fst_eq (o p : PyStr) :
    (check_dietary_misparse o p).1 =
      (DIETARY_MISPARSE_PATTERNS.find?
        (ruleFires (pyStrip (pyLower o)) (pyStrip (pyLower p)))).isSome := by
  unfold check_dietary_misparse
  cases DIETARY_MISPARSE_PATTERNS.find?
      (ruleFires (pyStrip (pyLower o)) (pyStrip (pyLower p))) <;> rfl

theorem check_true_iff (o p : PyStr) :
    (check_dietary_misparse o p).1 = true ↔
      ∃ r ∈ DIETARY_MISPARSE_PATTERNS,
        ruleFires (pyStrip (pyLower o)) (pyStrip (pyLower p)) r = true := by
  rw [check_fst_eq, List.find?_isSome]

theorem ruleFires_iff (origL parsedL : PyStr) (r : MisparseRule) :
    ruleFires origL parsedL r = true ↔
      (∃ ph ∈ r.original_contains, strHas origL ph = true) ∧
      (∃ t ∈ r.parsed_matches, parsedL = t ∨ strEnds parsedL t = true) := by
  unfold ruleFires
  rw [Bool.and_eq_true, List.any_eq_true, List.any_eq_true]
  constructor
  · rintro ⟨⟨ph, hph, hhas⟩, ⟨t, ht, hm⟩⟩
    refine ⟨⟨ph, hph, hhas⟩, ⟨t, ht, ?_⟩⟩
    rw [Bool.or_eq_true] at hm
    rcases hm with h | h
    · exact Or.inl (beq_iff_eq.mp h)
    · exact Or.inr h
  · rintro ⟨⟨ph, hph, hhas⟩, ⟨t, ht, hm⟩⟩
    refine ⟨⟨ph, hph, hhas⟩, ⟨t, ht, ?_⟩⟩
    rw [Bool.or_eq_true]
    rcases hm with h | h
    · exact Or.inl (beq_iff_eq.mpr h)
    · exact Or.inr h

/-- C2: `checkMisparse` fires exactly when some rule of the table has a
trigger phrase contained in the lowercased (stripped) original and a target
equal to, or a suffix of, the lowercased (stripped) parsed name; any
original text containing `"eggplant"` with parsed name `"eggs"` fires, and
an original made only of `egg`/`eggs` tokens never fires with parsed name
`"eggs"`. -/
theorem c2_check_dietary_misparse :
    (∀ o p : PyStr, (check_dietary_misparse o p).1 = true ↔
        ∃ r ∈ DIETARY_MISPARSE_PATTERNS,
          (∃ ph ∈ r.original_contains, strHas (pyStrip (pyLower o)) ph = true) ∧
          (∃ t ∈ r.parsed_matches,
            pyStrip (pyLower p) = t ∨ strEnds (pyStrip (pyLower p)) t = true)) ∧
    (∀ o : PyStr, strHas o (pyS "eggplant") = true →
        (check_dietary_misparse o (pyS "eggs")).1 = true) ∧
    (∀ o : PyStr, (∀ w ∈ pySplit o, w = pyS "egg" ∨ w = pyS "eggs") →
        (check_dietary_misparse o (pyS "eggs")).1 = false) := by
  refine ⟨?_, ?_, ?_⟩
  · intro o p
    rw [check_true_iff]
    constructor
    · rintro ⟨r, hr, hfires⟩
      exact ⟨r, hr, (ruleFires_iff _ _ r).mp hfires⟩
    · rintro ⟨r, hr, h1, h2⟩
      exact ⟨r, hr, (ruleFires_iff _ _ r).mpr ⟨h1, h2⟩⟩
  · intro o h
    have hsplit : ('e' :: pyS "ggplant") = pyS "eggplant" := by decide
    have h1 : strHas (pyLower o) (pyS "eggplant") = true := by
      have hm := strHas_map pyLowerChar (pyS "eggplant") o h
      rwa [show (pyS "eggplant").map pyLowerChar = pyS "eggplant" from by decide] at hm
    have h2 : strHas (pyStrip (pyLower o)) (pyS "eggplant") = true := by
      rw [← hsplit] at h1 ⊢
      exact strHas_pyStrip 'e' (pyS "ggplant") (by decide) _ h1
    rw [check_true_iff]
    refine ⟨⟨[pyS "eggplant"], [pyS "eggs", pyS "egg"],
      pyS "eggplant incorrectly parsed as eggs (vegan vs non-vegan)", pyS "critical"⟩,
      by decide, ?_⟩
    rw [ruleFires_iff]
    constructor
    · exact ⟨pyS "eggplant", by decide, h2⟩
    · exact ⟨pyS "eggs", by decide, Or.inl (by decide)⟩
  · intro o htok
    have hchar : ∀ c ∈ o, pyWsChar c = true ∨ c = 'e' ∨ c = 'g' ∨ c = 's' := by
      intro c hc
      rcases pySplit_cover c o hc with hws | ⟨w, hw, hcw⟩
      · exact Or.inl hws
      · rcases htok w hw with rfl | rfl
        · rw [show pyS "egg" = ['e', 'g', 'g'] from by decide] at hcw
          simp only [List.mem_cons, List.not_mem_nil, or_false] at hcw
          rcases hcw with rfl | rfl | rfl
          · exact Or.inr (Or.inl rfl)
          · exact Or.inr (Or.inr (Or.inl rfl))
          · exact Or.inr (Or.inr (Or.inl rfl))
        · rw [show pyS "eggs" = ['e', 'g', 'g', 's'] from by decide] at hcw
          simp only [List.mem_cons, List.not_mem_nil, or_false] at hcw
          rcases hcw with rfl | rfl | rfl | rfl
          · exact Or.inr (Or.inl rfl)
          · exact Or.inr (Or.inr (Or.inl rfl))
          · exact Or.inr (Or.inr (Or.inl rfl))
          · exact Or.inr (Or.inr (Or.inr rfl))
    have hproc : ∀ c ∈ pyStrip (pyLower o),
        pyWsChar c = true ∨ c = 'e' ∨ c = 'g' ∨ c = 's' := by
      intro c hc
      have hc2 : c ∈ pyLower o := mem_pyStrip c _ hc
      unfold pyLower at hc2
      rcases List.mem_map.mp hc2 with ⟨c0, hc0, rfl⟩
      rcases hchar c0 hc0 with hws | h3
      · rw [pyLowerChar_ws c0 hws]
        exact Or.inl hws
      · rcases h3 with rfl | rfl | rfl <;> decide
    have hnophrase : ∀ (ph : PyStr) (cbad : Char), cbad ∈ ph →
        ¬ (pyWsChar cbad = true ∨ cbad = 'e' ∨ cbad = 'g' ∨ cbad = 's') →
        strHas (pyStrip (pyLower o)) ph = false := by
      intro ph cbad hmem hnot
      cases hsh : strHas (pyStrip (pyLower o)) ph
      · rfl
      · exact absurd (hproc cbad (mem_of_strHas ph _ hsh cbad hmem)) hnot
    cases hc : (check_dietary_misparse o (pyS "eggs")).1
    · rfl
    · exfalso
      rw [check_true_iff] at hc
      obtain ⟨r, hr, hfires⟩ := hc
      rw [ruleFires_iff] at hfires
      obtain ⟨⟨ph, hph, hhas⟩, ⟨t, ht, hmatch⟩⟩ := hfires
      rw [show pyStrip (pyLower (pyS "eggs")) = pyS "eggs" from by decide] at hmatch
      fin_cases hr
      · -- eggplant rule: the phrase needs a character outside {e,g,s,ws}
        fin_cases hph
        rw [hnophrase (pyS "eggplant") 'p' (by decide) (by decide)] at hhas
        exact absurd hhas (by decide)
      · fin_cases ht
        all_goals revert hmatch
        all_goals decide
      · fin_cases ht
        all_goals revert hmatch
        all_goals decide
      · fin_cases ht
        all_goals revert hmatch
        all_goals decide
      · fin_cases ht
        all_goals revert hmatch
        all_goals decide
      · -- egg-substitute rule: every phrase needs a character outside the set
        fin_cases hph
        · rw [hnophrase (pyS "egg replacer") 'r' (by decide) (by decide)] at hhas
          exact absurd hhas (by decide)
        · rw [hnophrase (pyS "flax egg") 'f' (by decide) (by decide)] at hhas
          exact absurd hhas (by decide)
        · rw [hnophrase (pyS "chia egg") 'h' (by decide) (by decide)] at hhas
          exact absurd hhas (by decide)
      · fin_cases ht
        all_goals revert hmatch
        all_goals decide
      · fin_cases ht
        all_goals revert hmatch
        all_goals decide

/-- Witness for `c2_check_dietary_misparse` on `"2 medium eggplant"`. -/
theorem c2_check_dietary_misparse_witness :
    strHas (pyS "2 medium eggplant") (pyS "eggplant") = true ∧
    (check_dietary_misparse (pyS "2 medium eggplant") (pyS "eggs")).1 = true :=
  ⟨by decide, c2_check_dietary_misparse.2.1 (pyS "2 medium eggplant") (by decide)⟩

/- ### Claim C3 -/

/-- C3: `normalize_raw_ingredient` lowercases/strips/unstars the name, drops
it when an ignored ingredient (`"water"`) occurs anywhere as a substring,
consolidates on an exact whole-string match against a variant list, and
otherwise returns the cleaned name; with the concrete regressions
`"large eggs" → "eggs"`, `"eggplant" → "eggplant"`, `"water" → none`. -/
theorem c3_normalize_raw_ingredient :
    normalize_raw_ingredient (pyS "large eggs") = some (pyS "eggs") ∧
    normalize_raw_ingredient (pyS "eggplant") = some (pyS "eggplant") ∧
    normalize_raw_ingredient (pyS "water") = none ∧
    (∀ n : PyStr, strHas n (pyS "water") = true → normalize_raw_ingredient n = none) ∧
    (∀ (n canon : PyStr) (vars : List PyStr),
        (canon, vars) ∈ RAW_INGREDIENT_CONSOLIDATION →
        cleanName n ∈ vars.map pyLower →
        (∀ ig ∈ IGNORED_INGREDIENTS, strHas (cleanName n) ig = false) →
        normalize_raw_ingredient n = some canon) ∧
    (∀ n : PyStr,
        (∀ ig ∈ IGNORED_INGREDIENTS, strHas (cleanName n) ig = false) →
        (∀ canon vars, (canon, vars) ∈ RAW_INGREDIENT_CONSOLIDATION →
            cleanName n ∉ vars.map pyLower) →
        normalize_raw_ingredient n = some (cleanName n)) := by
  refine ⟨by decide, by decide, by decide, ?_, ?_, ?_⟩
  · intro n h
    have hsplit : ('w' :: pyS "ater") = pyS "water" := by decide
    have hw1 : strHas (pyLower n) (pyS "water") = true := by
      have hm := strHas_map pyLowerChar (pyS "water") n h
      rwa [show (pyS "water").map pyLowerChar = pyS "water" from by decide] at hm
    have hw2 : strHas (pyStrip (pyLower n)) (pyS "water") = true := by
      rw [← hsplit] at hw1 ⊢
      exact strHas_pyStrip 'w' (pyS "ater") (by decide) _ hw1
    have hw3 : strHas ((pyStrip (pyLower n)).filter (fun c => c != '*')) (pyS "water") = true :=
      strHas_filter _ _ (by decide) _ hw2
    have hw4 : strHas (cleanName n) (pyS "water") = true := by
      unfold cleanName
      rw [← hsplit] at hw3 ⊢
      exact strHas_pyStrip 'w' (pyS "ater") (by decide) _ hw3
    unfold normalize_raw_ingredient
    rw [if_pos (by
      rw [List.any_eq_true]
      exact ⟨pyS "water", by decide, hw4⟩)]
  · intro n canon vars hmem hvar _
    unfold normalize_raw_ingredient
    fin_cases hmem
    all_goals
      obtain ⟨v, hv, heq⟩ := List.mem_map.mp hvar
      rw [← heq]
      fin_cases hv <;> decide
  · intro n hig hnone
    unfold normalize_raw_ingredient
    rw [if_neg (by
      rw [List.any_eq_true]
      rintro ⟨ig, higm, hhas⟩
      rw [hig ig higm] at hhas
      cases hhas)]
    have hfind : RAW_INGREDIENT_CONSOLIDATION.find?
        (fun p => p.2.any (fun v => pyLower v == cleanName n)) = none := by
      rw [List.find?_eq_none]
      rintro ⟨canon, vars⟩ hp hany
      rw [List.any_eq_true] at hany
      obtain ⟨v, hv, heq⟩ := hany
      exact hnone canon vars hp (List.mem_map.mpr ⟨v, hv, beq_iff_eq.mp heq⟩)
    rw [hfind]

/-- Witness for `c3_normalize_raw_ingredient` on `"filtered water"`. -/
theorem c3_normalize_raw_ingredient_witness :
    strHas (pyS "filtered water") (pyS "water") = true ∧
    normalize_raw_ingredient (pyS "filtered water") = none :=
  ⟨by decide, c3_normalize_raw_ingredient.2.2.2.1 (pyS "filtered water") (by decide)⟩

/- ### Claim C1 -/

/-- C1: every per-line fallback record carries the trimmed original line as
its `raw_ingredient` and the untouched line as `original_text`; and the
formatter returns `raw_ingredient` verbatim for fallback records, else the
truthy quantity, truthy unit and name joined by single spaces. -/
theorem c1_fallback_and_format :
    (∀ (nlp : PyStr → Except Unit NlpResult) (text : PyStr) (th : PyFrac)
        (r : StructuredIngredient),
        parse_ingredient_structured nlp text th = some r → r.used_fallback = true →
        r.raw_ingredient = pyStrip text ∧ r.original_text = text) ∧
    (∀ r : StructuredIngredient, r.used_fallback = true →
        format_shopping_item r = r.raw_ingredient) ∧
    (∀ r : StructuredIngredient, r.used_fallback = false →
        format_shopping_item r =
          List.intercalate (pyS " ")
            ((if pyTruthy r.quantity then [r.quantity.getD []] else []) ++
             (if pyTruthy r.unit then [r.unit.getD []] else []) ++
             [r.raw_ingredient])) := by
  refine ⟨?_, ?_, ?_⟩
  · intro nlp text th r h hf
    obtain ⟨h1, h2, _⟩ := parse_structured_fallback_shape nlp text th r h hf
    exact ⟨h1, h2⟩
  · intro r hf
    unfold format_shopping_item
    rw [if_pos hf]
  · intro r hf
    unfold format_shopping_item
    rw [if_neg (by simp [hf])]

/-- Witness for `c1_fallback_and_format`: a line whose NLP call raises. -/
theorem c1_fallback_and_format_witness :
    parse_ingredient_structured (fun _ => .error ()) (pyS " x ") CONFIDENCE_THRESHOLD =
      some (fallbackRecord (pyS " x ")) ∧
    (fallbackRecord (pyS " x ")).raw_ingredient = pyStrip (pyS " x ") ∧
    (fallbackRecord (pyS " x ")).original_text = pyS " x " :=
  ⟨by decide,
   c1_fallback_and_format.1 (fun _ => .error ()) (pyS " x ") CONFIDENCE_THRESHOLD
     (fallbackRecord (pyS " x ")) (by decide) (by decide)⟩

/- ### Claim C10 -/

/-- C10: a per-line record with `used_fallback = true` always has an empty
descriptors list, on every fallback path; yet the safety/low-confidence
path still preserves the parsed quantity and unit. -/
theorem c10_fallback_descriptors_empty :
    (∀ (nlp : PyStr → Except Unit NlpResult) (text : PyStr) (th : PyFrac)
        (r : StructuredIngredient),
        parse_ingredient_structured nlp text th = some r → r.used_fallback = true →
        r.descriptors = []) ∧
    (∀ (parsed : NlpResult) (text : PyStr) (th : PyFrac) (q u : Option PyStr)
        (nm : PyStr) (conf : PyFrac),
        extract_amount parsed = .ok (q, u) →
        extract_name parsed = some (nm, conf) →
        nm.isEmpty = false →
        ((check_dietary_misparse text nm).1 || ltFrac conf th) = true →
        parse_body parsed text th = .ok (some ⟨pyStrip text, q, u, [], text, conf, true⟩)) :=
  ⟨fun nlp text th r h hf => (parse_structured_fallback_shape nlp text th r h hf).2.2,
   parse_body_safety_path⟩

/-- Witness for `c10_fallback_descriptors_empty`: the coconut-milk safety
override keeps the parsed quantity and unit while discarding descriptors. -/
theorem c10_fallback_descriptors_empty_witness :
    parse_body ⟨[⟨some (pyS "1"), some (pyS "cup")⟩], [(pyS "milk", ⟨99, 100⟩)], none, none⟩
        (pyS "1 cup coconut milk") CONFIDENCE_THRESHOLD =
      .ok (some ⟨pyStrip (pyS "1 cup coconut milk"), some (pyS "1"), some (pyS "cup"), [],
        pyS "1 cup coconut milk", ⟨99, 100⟩, true⟩) :=
  c10_fallback_descriptors_empty.2
    ⟨[⟨some (pyS "1"), some (pyS "cup")⟩], [(pyS "milk", ⟨99, 100⟩)], none, none⟩
    (pyS "1 cup coconut milk") CONFIDENCE_THRESHOLD
    (some (pyS "1")) (some (pyS "cup")) (pyS "milk") ⟨99, 100⟩
    (by decide) (by decide) (by decide) (by decide)

/- ### Claim C6 -/

/-- C6: the list-level API is total — the empty list maps to the empty
list; a line whose NLP call raises becomes the confidence-0 fallback
record rather than an exception; a failing line leaves the records of the
lines before and after it untouched; and the whole API is per-line parsing
followed by consolidation. -/
theorem c6_list_api_total :
    (∀ (nlp : PyStr → Except Unit NlpResult) (th : PyFrac),
        parse_ingredients_list nlp [] th = []) ∧
    (∀ (nlp : PyStr → Except Unit NlpResult) (text : PyStr) (th : PyFrac),
        (pyStrip text).isEmpty = false →
        nlp (normalize_fractions_for_parsing text) = .error () →
        parse_ingredient_structured nlp text th =
          some ⟨pyStrip text, none, none, [], text, zeroFrac, true⟩) ∧
    (∀ (nlp : PyStr → Except Unit NlpResult) (th : PyFrac) (pre post : List PyStr)
        (bad : PyStr),
        (pre ++ bad :: post).filterMap (fun t => parse_ingredient_structured nlp t th) =
          pre.filterMap (fun t => parse_ingredient_structured nlp t th) ++
          (parse_ingredient_structured nlp bad th).toList ++
          post.filterMap (fun t => parse_ingredient_structured nlp t th)) ∧
    (∀ (nlp : PyStr → Except Unit NlpResult) (lines : List PyStr) (th : PyFrac),
        parse_ingredients_list nlp lines th =
          consolidate_parsed (lines.filterMap
            (fun t => parse_ingredient_structured nlp t th))) := by
  refine ⟨?_, ?_, ?_, ?_⟩
  · intro nlp th
    rfl
  · intro nlp text th hne hE
    exact parse_structured_error nlp text th hne hE
  · intro nlp th pre post bad
    rw [List.filterMap_append]
    cases h : parse_ingredient_structured nlp bad th <;>
      simp [List.filterMap_cons, h]
  · intro nlp lines th
    rfl

/-- Witness for `c6_list_api_total`: one raising line. -/
theorem c6_list_api_total_witness :
    (pyStrip (pyS "x")).isEmpty = false ∧
    parse_ingredient_structured (fun _ => .error ()) (pyS "x") CONFIDENCE_THRESHOLD =
      some ⟨pyStrip (pyS "x"), none, none, [], pyS "x", zeroFrac, true⟩ :=
  ⟨by decide,
   c6_list_api_total.2.1 (fun _ => .error ()) (pyS "x") CONFIDENCE_THRESHOLD
     (by decide) rfl⟩

/- ### Claim C4 -/

theorem mergeUnitGroup_single (x : StructuredIngredient) : mergeUnitGroup [x] = [x] := rfl

theorem mergeUnitGroup_big (a b : StructuredIngredient) (rest : List StructuredIngredient) :
    mergeUnitGroup (a :: b :: rest) = [mergeGroup (a :: b :: rest)] := rfl

theorem consolidateTop_single (x : StructuredIngredient) : consolidateTop [x] = [x] := rfl

theorem consolidateTop_big (a b : StructuredIngredient) (rest : List StructuredIngredient) :
    consolidateTop (a :: b :: rest) = consolidate_ingredient_group (a :: b :: rest) := rfl

/-- C4 counterexample: two records of the same ingredient, one with an
absent unit and one whose unit is the literal string `"unitless"`, are
merged into a single record even though their units differ — the grouping
key `ing.unit or "unitless"` collides.  The claim that an absent unit is a
key distinct from every present unit string is therefore false. -/
theorem c4_counterexample :
    consolidate_ingredient_group
      [⟨pyS "flour", some (pyS "1"), none, [], pyS "one", ⟨1, 1⟩, false⟩,
       ⟨pyS "flour", some (pyS "2"), some (pyS "unitless"), [], pyS "two", ⟨1, 1⟩, false⟩]
    = [⟨pyS "flour", some (pyS "3"), none, [], pyS "Combined: one, two", ⟨1, 1⟩, false⟩] ∧
    (none : Option PyStr) ≠ some (pyS "unitless") := by decide

/-- C4 (amended): every record emitted by the consolidation pass is either
an input record, or the merge of at least two input records that all share
the same `raw_ingredient` and the same `unitKey`, where `unitKey` maps an
absent or empty unit and the literal unit string `"unitless"` to one common
key (rather than keeping the absent unit distinct from every present unit
string). -/
theorem c4_merge_only_same_key :
    ∀ (l : List StructuredIngredient) (r : StructuredIngredient),
      r ∈ consolidate_parsed l →
      r ∈ l ∨
      ∃ g : List StructuredIngredient, 2 ≤ g.length ∧ (∀ x ∈ g, x ∈ l) ∧
        (∀ x ∈ g, ∀ y ∈ g, x.raw_ingredient = y.raw_ingredient ∧
          unitKey x.unit = unitKey y.unit) ∧
        r = mergeGroup g := by
  intro l r hr
  unfold consolidate_parsed at hr
  rw [mem_foldl_append (fun kg => consolidateTop kg.2)] at hr
  rcases hr with h | ⟨kg, hkg, hrF⟩
  · simp at h
  obtain ⟨k, g⟩ := kg
  obtain ⟨hne, hmem⟩ := groupByKey_ok (fun i => i.raw_ingredient) l k g hkg
  rcases g with _ | ⟨a, rest⟩
  · exact absurd rfl hne
  rcases rest with _ | ⟨b, rest2⟩
  · rw [consolidateTop_single, List.mem_singleton] at hrF
    subst hrF
    exact Or.inl (hmem r (List.mem_cons_self _ _)).1
  · rw [consolidateTop_big] at hrF
    unfold consolidate_ingredient_group at hrF
    rw [if_neg (by simp)] at hrF
    rw [mem_foldl_append (fun kg => mergeUnitGroup kg.2)] at hrF
    rcases hrF with h | ⟨kg2, hkg2, hrU⟩
    · simp at h
    obtain ⟨uk, ug⟩ := kg2
    obtain ⟨hneu, hmemu⟩ :=
      groupByKey_ok (fun i => unitKey i.unit) (a :: b :: rest2) uk ug hkg2
    rcases ug with _ | ⟨z, rest3⟩
    · exact absurd rfl hneu
    rcases rest3 with _ | ⟨w, rest4⟩
    · rw [mergeUnitGroup_single, List.mem_singleton] at hrU
      subst hrU
      exact Or.inl (hmem r (hmemu r (List.mem_cons_self _ _)).1).1
    · rw [mergeUnitGroup_big, List.mem_singleton] at hrU
      subst hrU
      right
      refine ⟨z :: w :: rest4, by simp, ?_, ?_, rfl⟩
      · intro x hx
        exact (hmem x (hmemu x hx).1).1
      · intro x hx y hy
        have hxm := hmemu x hx
        have hym := hmemu y hy
        have hxr := (hmem x hxm.1).2
        have hyr := (hmem y hym.1).2
        exact ⟨hxr.trans hyr.symm, hxm.2.trans hym.2.symm⟩

/-- Witness for `c4_merge_only_same_key`: two cups of flour merge. -/
theorem c4_merge_only_same_key_witness :
    mergeGroup
        [⟨pyS "flour", some (pyS "1"), some (pyS "cup"), [], pyS "one", ⟨1, 1⟩, false⟩,
         ⟨pyS "flour", some (pyS "2"), some (pyS "cup"), [], pyS "two", ⟨1, 1⟩, false⟩] ∈
      consolidate_parsed
        [⟨pyS "flour", some (pyS "1"), some (pyS "cup"), [], pyS "one", ⟨1, 1⟩, false⟩,
         ⟨pyS "flour", some (pyS "2"), some (pyS "cup"), [], pyS "two", ⟨1, 1⟩, false⟩] ∧
    (mergeGroup
        [⟨pyS "flour", some (pyS "1"), some (pyS "cup"), [], pyS "one", ⟨1, 1⟩, false⟩,
         ⟨pyS "flour", some (pyS "2"), some (pyS "cup"), [], pyS "two", ⟨1, 1⟩, false⟩] ∈
      ([⟨pyS "flour", some (pyS "1"), some (pyS "cup"), [], pyS "one", ⟨1, 1⟩, false⟩,
        ⟨pyS "flour", some (pyS "2"), some (pyS "cup"), [], pyS "two", ⟨1, 1⟩, false⟩] :
        List StructuredIngredient) ∨
      ∃ g : List StructuredIngredient, 2 ≤ g.length ∧
        (∀ x ∈ g, x ∈ ([⟨pyS "flour", some (pyS "1"), some (pyS "cup"), [], pyS "one",
            ⟨1, 1⟩, false⟩,
          ⟨pyS "flour", some (pyS "2"), some (pyS "cup"), [], pyS "two", ⟨1, 1⟩, false⟩] :
            List StructuredIngredient)) ∧
        (∀ x ∈ g, ∀ y ∈ g, x.raw_ingredient = y.raw_ingredient ∧
          unitKey x.unit = unitKey y.unit) ∧
        mergeGroup
          [⟨pyS "flour", some (pyS "1"), some (pyS "cup"), [], pyS "one", ⟨1, 1⟩, false⟩,
           ⟨pyS "flour", some (pyS "2"), some (pyS "cup"), [], pyS "two", ⟨1, 1⟩, false⟩]
          = mergeGroup g) :=
  ⟨by decide,
   c4_merge_only_same_key
     [⟨pyS "flour", some (pyS "1"), some (pyS "cup"), [], pyS "one", ⟨1, 1⟩, false⟩,
      ⟨pyS "flour", some (pyS "2"), some (pyS "cup"), [], pyS "two", ⟨1, 1⟩, false⟩]
     (mergeGroup
       [⟨pyS "flour", some (pyS "1"), some (pyS "cup"), [], pyS "one", ⟨1, 1⟩, false⟩,
        ⟨pyS "flour", some (pyS "2"), some (pyS "cup"), [], pyS "two", ⟨1, 1⟩, false⟩])
     (by decide)⟩

/- ### Claim C5 -/

/-- C5: a unit sub-group of size 1 passes through unchanged; a merged
sub-group takes its name/unit from the first member, left-folds
`combine_quantities` over the quantities in arrival order, concatenates and
deduplicates descriptors (first-seen order, no duplicates), takes `any`
fallback, builds the synthetic `"Combined: ..."` audit string, and its
confidence is the minimum of the member confidences. -/
theorem c5_merge_fields :
    (∀ x : StructuredIngredient, mergeUnitGroup [x] = [x]) ∧
    (∀ (base : StructuredIngredient) (rest : List StructuredIngredient), rest ≠ [] →
      (mergeGroup (base :: rest)).raw_ingredient = base.raw_ingredient ∧
      (mergeGroup (base :: rest)).quantity =
        rest.foldl (fun acc i => combineQRun acc i.quantity) base.quantity ∧
      (mergeGroup (base :: rest)).unit = base.unit ∧
      (mergeGroup (base :: rest)).descriptors =
        pyDedup ((base :: rest).foldl (fun acc i => acc ++ i.descriptors) []) ∧
      (mergeGroup (base :: rest)).descriptors.Nodup ∧
      (mergeGroup (base :: rest)).original_text =
        pyS "Combined: " ++
          List.intercalate (pyS ", ") ((base :: rest).map (·.original_text)) ∧
      (mergeGroup (base :: rest)).used_fallback = (base :: rest).any (·.used_fallback)) ∧
    (∀ (base : StructuredIngredient) (rest : List StructuredIngredient),
        (∀ x ∈ base :: rest, 0 < x.confidence.den) →
        (∃ x ∈ base :: rest, (mergeGroup (base :: rest)).confidence = x.confidence) ∧
        (∀ x ∈ base :: rest,
          leFrac (mergeGroup (base :: rest)).confidence x.confidence = true)) ∧
    (∀ q1 q2 : Option PyStr, combine_quantities q1 q2 = .ok (combineQRun q1 q2)) := by
  refine ⟨fun x => rfl, ?_, ?_, combine_quantities_run⟩
  · intro base rest _
    exact ⟨rfl, rfl, rfl, rfl, pyDedup_nodup _, rfl, rfl⟩
  · intro base rest hpos
    have hbden : 0 < base.confidence.den := hpos base (List.mem_cons_self _ _)
    have hrden : ∀ c ∈ rest.map (fun i => i.confidence), 0 < c.den := by
      intro c hc
      obtain ⟨i, hi, heq⟩ := List.mem_map.mp hc
      rw [← heq]
      exact hpos i (List.mem_cons_of_mem _ hi)
    have hfold : (mergeGroup (base :: rest)).confidence =
        (rest.map (fun i => i.confidence)).foldl minFrac base.confidence := by
      show rest.foldl (fun m i => minFrac m i.confidence) base.confidence = _
      rw [List.foldl_map]
    obtain ⟨hmem, hle, hall⟩ :=
      foldl_minFrac_props (rest.map (fun i => i.confidence)) base.confidence hbden hrden
    constructor
    · rcases hmem with h | h
      · exact ⟨base, List.mem_cons_self _ _, by rw [hfold, h]⟩
      · obtain ⟨i, hi, heq⟩ := List.mem_map.mp h
        exact ⟨i, List.mem_cons_of_mem _ hi, by rw [hfold, ← heq]⟩
    · intro x hx
      rcases List.mem_cons.mp hx with rfl | hxr
      · rw [hfold]
        exact hle
      · rw [hfold]
        exact hall x.confidence (List.mem_map.mpr ⟨x, hxr, rfl⟩)

/-- Witness for `c5_merge_fields`: merging two cups of flour with unequal
confidences picks the smaller one. -/
theorem c5_merge_fields_witness :
    (∃ x ∈ [⟨pyS "flour", some (pyS "1"), some (pyS "cup"), [pyS "sifted"], pyS "one",
        ⟨9, 10⟩, false⟩,
      (⟨pyS "flour", some (pyS "2"), some (pyS "cup"), [pyS "sifted", pyS "fresh"], pyS "two",
        ⟨7, 10⟩, true⟩ : StructuredIngredient)],
      (mergeGroup [⟨pyS "flour", some (pyS "1"), some (pyS "cup"), [pyS "sifted"], pyS "one",
          ⟨9, 10⟩, false⟩,
        ⟨pyS "flour", some (pyS "2"), some (pyS "cup"), [pyS "sifted", pyS "fresh"], pyS "two",
          ⟨7, 10⟩, true⟩]).confidence = x.confidence) ∧
    (∀ x ∈ [⟨pyS "flour", some (pyS "1"), some (pyS "cup"), [pyS "sifted"], pyS "one",
        ⟨9, 10⟩, false⟩,
      (⟨pyS "flour", some (pyS "2"), some (pyS "cup"), [pyS "sifted", pyS "fresh"], pyS "two",
        ⟨7, 10⟩, true⟩ : StructuredIngredient)],
      leFrac (mergeGroup [⟨pyS "flour", some (pyS "1"), some (pyS "cup"), [pyS "sifted"],
          pyS "one", ⟨9, 10⟩, false⟩,
        ⟨pyS "flour", some (pyS "2"), some (pyS "cup"), [pyS "sifted", pyS "fresh"], pyS "two",
          ⟨7, 10⟩, true⟩]).confidence x.confidence = true) :=
  c5_merge_fields.2.2.1
    ⟨pyS "flour", some (pyS "1"), some (pyS "cup"), [pyS "sifted"], pyS "one", ⟨9, 10⟩, false⟩
    [⟨pyS "flour", some (pyS "2"), some (pyS "cup"), [pyS "sifted", pyS "fresh"], pyS "two",
      ⟨7, 10⟩, true⟩]
    (by decide)
